import Mathlib

/-!
Verification of the `ExpiringDataContainer` class (canonical dual-structure
revision: `src/unnamed/part_000` with its header `src/expiring_data_container.hpp`).

Shallow embedding: the monotonic clock is modelled as `Nat` ticks; the
`std::priority_queue` min-heap ordered by `expiration` is modelled as a list
kept sorted ascending by `expiration` (heap drain order), `push` being ordered
insertion; the `std::deque` `insertion_order` is a plain list (front = head,
back = last).  Each C++ member function becomes a pure function on
`ContainerState`; the mutating queries return the result paired with the new
state; the `throw` in `get_most_recent` becomes `Except String`.
-/

namespace ExpiringData

/-- `TimedData` struct: value plus its insertion and expiration time points. -/
structure TimedData (T : Type) where
  data : T
  insertion : Nat
  expiration : Nat
  deriving DecidableEq, Repr

/-- The container's guarded state: the expiration-ordered heap `pq` (modelled by
its sorted drain order), the `insertion_order` deque, and the fixed duration. -/
structure ContainerState (T : Type) where
  pq : List (TimedData T)
  insertion_order : List (TimedData T)
  fixed_duration : Nat
  deriving DecidableEq, Repr

/-- A freshly constructed container: both structures empty. -/
def initState (T : Type) (duration : Nat) : ContainerState T :=
  ⟨[], [], duration⟩

/-- `pq.push`: ordered insertion into the expiration-sorted drain order of the
min-heap (position among equal expirations is unspecified in the source; this
model places the new entry before them). -/
def pqPush {T : Type} (e : TimedData T) : List (TimedData T) → List (TimedData T)
  | [] => [e]
  | x :: xs => if e.expiration ≤ x.expiration then e :: x :: xs else x :: pqPush e xs

/-- The eviction loop shared by both structures in `remove_expired`:
`while (!q.empty() && q.front().expiration <= now) q.pop();`. -/
def popExpired {T : Type} : List (TimedData T) → Nat → List (TimedData T)
  | [], _ => []
  | x :: xs, now => if x.expiration ≤ now then popExpired xs now else x :: xs

/-- `insert(data)`: with `now` captured from the clock, build
`{data, now, now + fixed_duration}`, push it onto `pq` and append it to
`insertion_order`. -/
def insert {T : Type} (s : ContainerState T) (data : T) (now : Nat) : ContainerState T :=
  let timed_data : TimedData T := ⟨data, now, now + s.fixed_duration⟩
  { s with pq := pqPush timed_data s.pq,
           insertion_order := s.insertion_order ++ [timed_data] }

/-- `remove_expired(now)`: pop `pq` while its top is expired, pop the front of
`insertion_order` while it is expired. -/
def remove_expired {T : Type} (s : ContainerState T) (now : Nat) : ContainerState T :=
  { s with pq := popExpired s.pq now,
           insertion_order := popExpired s.insertion_order now }

/-- `get_valid_data()`: evict at the captured `now`, then drain a copy of `pq`
collecting the `data` fields.  Returns the vector together with the container
state it leaves behind. -/
def get_valid_data {T : Type} (s : ContainerState T) (now : Nat) :
    List T × ContainerState T :=
  let s' := remove_expired s now
  (s'.pq.map (fun e => e.data), s')

/-- The drain loop of `is_less_than_all`: return `false` as soon as an entry
with `insertion <= time` is on top, `true` when the copy runs empty. -/
def lessThanAllLoop {T : Type} : List (TimedData T) → Nat → Bool
  | [], _ => true
  | x :: xs, time => if x.insertion ≤ time then false else lessThanAllLoop xs time

/-- `is_less_than_all(time)` (a `const` method): drains a copy of `pq` with no
prior eviction pass. -/
def is_less_than_all {T : Type} (s : ContainerState T) (time : Nat) : Bool :=
  lessThanAllLoop s.pq time

/-- The drain loop of `get_data_exceeding`: keep the `data` of entries with
`insertion > time`. -/
def exceedingLoop {T : Type} : List (TimedData T) → Nat → List T
  | [], _ => []
  | x :: xs, time =>
      if time < x.insertion then x.data :: exceedingLoop xs time else exceedingLoop xs time

/-- `get_data_exceeding(time)`: evict at the captured `now`, then drain a copy
of `pq` keeping values inserted strictly after `time`. -/
def get_data_exceeding {T : Type} (s : ContainerState T) (time : Nat) (now : Nat) :
    List T × ContainerState T :=
  let s' := remove_expired s now
  (exceedingLoop s'.pq time, s')

/-- `size()` (a `const` method): `return pq.size();` with no eviction. -/
def size {T : Type} (s : ContainerState T) : Nat :=
  s.pq.length

/-- `get_most_recent()` (a `const` method): throw if `insertion_order` is empty,
else return `insertion_order.back().data`, with no eviction. -/
def get_most_recent {T : Type} (s : ContainerState T) : Except String T :=
  match s.insertion_order.getLast? with
  | none => Except.error "No elements in the container"
  | some e => Except.ok e.data

/-- The two operations that mutate the guarded state (queries mutate only via
`remove_expired`, which `sweep` covers; the cleanup thread also only calls
`remove_expired`). -/
inductive Op (T : Type) where
  | ins (data : T)
  | sweep
  deriving DecidableEq, Repr

/-- Apply one operation at its captured clock time. -/
def applyOp {T : Type} (s : ContainerState T) : Op T × Nat → ContainerState T
  | (Op.ins d, now) => insert s d now
  | (Op.sweep, now) => remove_expired s now

/-- Run a trace of timestamped operations from a starting state. -/
def runOps {T : Type} (s : ContainerState T) : List (Op T × Nat) → ContainerState T
  | [] => s
  | op :: ops => runOps (applyOp s op) ops

/-- The monotonic clock: successive captured times never decrease, and none is
below the given starting tick. -/
def timesMono {T : Type} : Nat → List (Op T × Nat) → Bool
  | _, [] => true
  | t, (_, t') :: ops => decide (t ≤ t') && timesMono t' ops

/-- Insert the same value once per time in the list (left to right). -/
def insertMany {T : Type} (s : ContainerState T) (v : T) (times : List Nat) :
    ContainerState T :=
  times.foldl (fun st t => insert st v t) s

/-! ### Helper lemmas -/

/-- Sortedness of the heap drain order, ascending by `expiration`. -/
abbrev SortedByExp {T : Type} (l : List (TimedData T)) : Prop :=
  l.Pairwise (fun a b => a.expiration ≤ b.expiration)

/-- Sortedness of the deque, ascending by `insertion`. -/
abbrev SortedByIns {T : Type} (l : List (TimedData T)) : Prop :=
  l.Pairwise (fun a b => a.insertion ≤ b.insertion)

theorem popExpired_eq_filter {T : Type} (now : Nat) :
    ∀ (l : List (TimedData T)), SortedByExp l →
      popExpired l now = l.filter (fun e => now < e.expiration) := by
  intro l
  induction l with
  | nil => intro _; rfl
  | cons x xs ih =>
      intro hs0
      have hs := List.pairwise_cons.mp hs0
      by_cases hx : x.expiration ≤ now
      · have hdrop : (x :: xs).filter (fun e => now < e.expiration)
            = xs.filter (fun e => now < e.expiration) := by
          simp [List.filter_cons, Nat.not_lt.mpr hx]
        rw [hdrop, ← ih hs.2]
        simp [popExpired, hx]
      · have hx' : now < x.expiration := Nat.lt_of_not_le hx
        have hall : ∀ e ∈ x :: xs, now < e.expiration := by
          intro e he
          rcases List.mem_cons.mp he with rfl | he'
          · exact hx'
          · exact Nat.lt_of_lt_of_le hx' (hs.1 e he')
        rw [List.filter_eq_self.mpr (by intro e he; exact decide_eq_true (hall e he))]
        simp [popExpired, hx]

theorem popExpired_idem {T : Type} (now : Nat) (l : List (TimedData T)) :
    popExpired (popExpired l now) now = popExpired l now := by
  induction l with
  | nil => rfl
  | cons x xs ih =>
      by_cases hx : x.expiration ≤ now
      · simp [popExpired, hx, ih]
      · simp [popExpired, hx]

theorem pqPush_perm {T : Type} (e : TimedData T) (l : List (TimedData T)) :
    (pqPush e l).Perm (e :: l) := by
  induction l with
  | nil => exact List.Perm.refl _
  | cons x xs ih =>
      by_cases hx : e.expiration ≤ x.expiration
      · simp [pqPush, hx]
      · simp only [pqPush, hx, if_false]
        exact (ih.cons x).trans (List.Perm.swap e x xs)

theorem mem_pqPush {T : Type} (e y : TimedData T) (l : List (TimedData T)) :
    y ∈ pqPush e l ↔ y = e ∨ y ∈ l := by
  rw [(pqPush_perm e l).mem_iff, List.mem_cons]

theorem pqPush_sorted {T : Type} (e : TimedData T) (l : List (TimedData T))
    (hs : SortedByExp l) : SortedByExp (pqPush e l) := by
  induction l with
  | nil => simp [pqPush, SortedByExp]
  | cons x xs ih =>
      have hs := List.pairwise_cons.mp hs
      by_cases hx : e.expiration ≤ x.expiration
      · simp only [pqPush, hx, if_true]
        refine List.pairwise_cons.mpr ⟨?_, List.pairwise_cons.mpr hs⟩
        intro y hy
        rcases List.mem_cons.mp hy with rfl | hy'
        · exact hx
        · exact le_trans hx (hs.1 y hy')
      · simp only [pqPush, hx, if_false]
        refine List.pairwise_cons.mpr ⟨?_, ih hs.2⟩
        intro y hy
        rcases (mem_pqPush e y xs).mp hy with rfl | hy'
        · exact le_of_not_le hx
        · exact hs.1 y hy'

theorem lessThanAllLoop_eq_all {T : Type} (time : Nat) (l : List (TimedData T)) :
    lessThanAllLoop l time = l.all (fun e => time < e.insertion) := by
  induction l with
  | nil => rfl
  | cons x xs ih =>
      by_cases hx : x.insertion ≤ time
      · simp [lessThanAllLoop, hx, Nat.not_lt.mpr hx]
      · simp [lessThanAllLoop, hx, Nat.lt_of_not_le hx, ih]

theorem exceedingLoop_eq {T : Type} (time : Nat) (l : List (TimedData T)) :
    exceedingLoop l time =
      (l.filter (fun e => time < e.insertion)).map (fun e => e.data) := by
  induction l with
  | nil => rfl
  | cons x xs ih =>
      by_cases hx : time < x.insertion
      · simp [exceedingLoop, hx, List.filter_cons, ih]
      · simp [exceedingLoop, hx, List.filter_cons, ih]

theorem countP_popExpired {T : Type} (now : Nat) (q : TimedData T → Bool)
    (hq : ∀ e : TimedData T, q e → now < e.expiration) (l : List (TimedData T)) :
    (popExpired l now).countP q = l.countP q := by
  induction l with
  | nil => rfl
  | cons x xs ih =>
      by_cases hx : x.expiration ≤ now
      · have hqx : q x = false := by
          by_contra h
          exact absurd (hq x (Bool.of_not_eq_false h)) (Nat.not_lt.mpr hx)
        simp [popExpired, hx, ih, List.countP_cons, hqx]
      · simp [popExpired, hx]

theorem popExpired_of_live {T : Type} (now : Nat) (l : List (TimedData T))
    (h : ∀ e ∈ l, now < e.expiration) : popExpired l now = l := by
  cases l with
  | nil => rfl
  | cons x xs =>
      simp [popExpired, Nat.not_le.mpr (h x (List.mem_cons_self x xs))]

theorem length_filter_live_add_stale {T : Type} (now : Nat) :
    ∀ l : List (TimedData T),
      l.length = (l.filter (fun e => now < e.expiration)).length
               + (l.filter (fun e => e.expiration ≤ now)).length := by
  intro l
  induction l with
  | nil => rfl
  | cons x xs ih =>
      by_cases hx : now < x.expiration
      · simp [List.filter_cons, hx, Nat.not_le.mpr hx]
        omega
      · simp [List.filter_cons, hx, Nat.le_of_not_lt hx]
        omega

/-! ### Concrete states used by witnesses and counterexamples -/

/-- A container state with one expired (at tick 6) and one live entry. -/
def sampleState : ContainerState Nat :=
  ⟨[⟨10, 0, 5⟩, ⟨11, 3, 8⟩], [⟨10, 0, 5⟩, ⟨11, 3, 8⟩], 5⟩

/-- A container state holding a single entry that is already expired at tick 10
but has not yet been swept. -/
def staleState : ContainerState Nat :=
  ⟨[⟨7, 0, 5⟩], [⟨7, 0, 5⟩], 5⟩

/-! ### Claim theorems -/

/-- C1: `get_valid_data()` first removes all entries with `expiration ≤ now`
(the state it leaves behind is exactly `remove_expired`), and returns exactly
the values of the entries with `expiration > now` at call time, listed in
ascending expiration order. -/
theorem get_valid_data_spec {T : Type} (s : ContainerState T) (now : Nat)
    (hpq : SortedByExp s.pq) :
    (get_valid_data s now).2 = remove_expired s now
  ∧ (remove_expired s now).pq = s.pq.filter (fun e => now < e.expiration)
  ∧ (get_valid_data s now).1
      = (s.pq.filter (fun e => now < e.expiration)).map (fun e => e.data)
  ∧ SortedByExp (s.pq.filter (fun e => now < e.expiration)) := by
  have hfil := popExpired_eq_filter now s.pq hpq
  refine ⟨rfl, ?_, ?_, ?_⟩
  · simpa [remove_expired] using hfil
  · simp [get_valid_data, remove_expired, hfil]
  · exact hpq.sublist (List.filter_sublist s.pq)

/-- C1 witness: the specification of `get_valid_data` evaluated on
`sampleState` at tick 6. -/
theorem get_valid_data_spec_witness :
    SortedByExp sampleState.pq
  ∧ ((get_valid_data sampleState 6).2 = remove_expired sampleState 6
  ∧ (remove_expired sampleState 6).pq
      = sampleState.pq.filter (fun e => 6 < e.expiration)
  ∧ (get_valid_data sampleState 6).1
      = (sampleState.pq.filter (fun e => 6 < e.expiration)).map (fun e => e.data)
  ∧ SortedByExp (sampleState.pq.filter (fun e => 6 < e.expiration))) :=
  ⟨by decide, get_valid_data_spec sampleState 6 (by decide)⟩

/-- C6: `remove_expired` is idempotent — running it twice at the same `now`
leaves exactly the same container state (both structures) as running it once,
for every container state. -/
theorem remove_expired_idem {T : Type} (s : ContainerState T) (now : Nat) :
    remove_expired (remove_expired s now) now = remove_expired s now := by
  simp [remove_expired, popExpired_idem]

/-- C7: `insert(v)` at captured time `now` builds the entry
`{v, now, now + fixed_duration}`, puts it into both structures, keeps every
existing entry unchanged (the heap afterwards is a permutation of the old heap
plus the new entry, the deque is the old deque with the entry appended), and
leaves the duration untouched; as a total function it has no failure mode. -/
theorem insert_spec {T : Type} (s : ContainerState T) (v : T) (now : Nat) :
    TimedData.mk v now (now + s.fixed_duration) ∈ (insert s v now).pq
  ∧ TimedData.mk v now (now + s.fixed_duration) ∈ (insert s v now).insertion_order
  ∧ (insert s v now).pq.Perm (TimedData.mk v now (now + s.fixed_duration) :: s.pq)
  ∧ (insert s v now).insertion_order
      = s.insertion_order ++ [TimedData.mk v now (now + s.fixed_duration)]
  ∧ (∀ x ∈ s.pq, x ∈ (insert s v now).pq)
  ∧ (∀ x ∈ s.insertion_order, x ∈ (insert s v now).insertion_order)
  ∧ (insert s v now).fixed_duration = s.fixed_duration := by
  refine ⟨?_, ?_, pqPush_perm _ _, rfl, ?_, ?_, rfl⟩
  · exact (mem_pqPush _ _ _).mpr (Or.inl rfl)
  · simp [insert]
  · intro x hx
    exact (mem_pqPush _ _ _).mpr (Or.inr hx)
  · intro x hx
    simp [insert, hx]

/-- C9: `size()` returns the number of entries currently held in the expiration
structure, with no eviction: it grows by exactly one on each insert, and at any
reference tick it decomposes as the number of still-live entries plus the
number of already-expired but not-yet-swept entries. -/
theorem size_spec {T : Type} (s : ContainerState T) (v : T) (now : Nat) :
    size s = s.pq.length
  ∧ size (insert s v now) = size s + 1
  ∧ size s = (s.pq.filter (fun e => now < e.expiration)).length
           + (s.pq.filter (fun e => e.expiration ≤ now)).length := by
  refine ⟨rfl, ?_, length_filter_live_add_stale now s.pq⟩
  show (pqPush _ s.pq).length = s.pq.length + 1
  rw [(pqPush_perm _ s.pq).length_eq, List.length_cons]

theorem all_eq_decide_filter_length {T : Type} (p : TimedData T → Bool)
    (l : List (TimedData T)) :
    l.all p = decide ((l.filter p).length = l.length) := by
  by_cases h : ∀ e ∈ l, p e
  · rw [List.all_eq_true.mpr h, List.filter_eq_self.mpr h]
    simp
  · have hex : ∃ x ∈ l, ¬ p x := by
      push_neg at h
      exact h
    have hlt : (l.filter p).length < l.length :=
      List.length_filter_lt_length_iff_exists.mpr hex
    have hall : l.all p = false := by
      rcases hex with ⟨x, hx, hpx⟩
      rcases Bool.eq_false_or_eq_true (l.all p) with ht | hf
      · exact absurd (List.all_eq_true.mp ht x hx) hpx
      · exact hf
    rw [hall, decide_eq_false (Nat.ne_of_lt hlt)]

theorem getLast?_mem_self {T : Type} :
    ∀ (l : List T) (e : T), l.getLast? = some e → e ∈ l
  | [], _, h => by cases h
  | [a], e, h => by
      rw [List.getLast?_singleton] at h
      rw [Option.some_inj] at h
      rw [h]
      exact List.mem_singleton_self e
  | a :: b :: bs, e, h => by
      rw [List.getLast?_cons_cons] at h
      exact List.mem_cons_of_mem a (getLast?_mem_self (b :: bs) e h)

theorem getLast_insertion_max {T : Type} :
    ∀ (l : List (TimedData T)) (e : TimedData T), SortedByIns l →
      l.getLast? = some e → ∀ x ∈ l, x.insertion ≤ e.insertion := by
  intro l
  induction l with
  | nil => intro e _ h; cases h
  | cons a as ih =>
      intro e hs hlast x hx
      have hs' := List.pairwise_cons.mp hs
      cases as with
      | nil =>
          rw [List.getLast?_singleton, Option.some_inj] at hlast
          rcases List.mem_singleton.mp hx with rfl
          rw [hlast]
      | cons b bs =>
          rw [List.getLast?_cons_cons] at hlast
          rcases List.mem_cons.mp hx with rfl | hx'
          · exact hs'.1 e (getLast?_mem_self (b :: bs) e hlast)
          · exact ih e hs'.2 hlast x hx'

/-- C2 counterexample: on a container whose only entry is already expired at
tick 10 but not yet swept, `is_less_than_all 0` returns `false` although every
currently live entry (there is none) has `insertion > 0` — the claimed
eviction-first reading would return `true`. -/
theorem is_less_than_all_claim_counterexample :
    ¬ (is_less_than_all staleState 0
        = (staleState.pq.filter (fun e => 10 < e.expiration)).all
            (fun e => 0 < e.insertion)) := by
  decide

/-- C2 amended: `is_less_than_all(t)` performs no eviction pass (it is a
`const` method and cannot call `remove_expired`); it returns `true` iff every
entry currently present in the expiration structure — including expired but
not-yet-swept entries — has `insertion > t`, so on an empty container it
returns `true` vacuously. -/
theorem is_less_than_all_spec {T : Type} (s : ContainerState T) (time : Nat) :
    is_less_than_all s time = s.pq.all (fun e => time < e.insertion) :=
  lessThanAllLoop_eq_all time s.pq

/-- C3 counterexample: on a container whose only entry is already expired at
tick 10 but not yet swept, `get_data_exceeding 0` and `get_valid_data` both
return the empty sequence (equal lengths) while `is_less_than_all 0` returns
`false`, so the claimed equivalence fails. -/
theorem length_agreement_counterexample :
    is_less_than_all staleState 0 = false
  ∧ (get_data_exceeding staleState 0 10).1.length
      = (get_valid_data staleState 10).1.length := by
  decide

/-- C3 amended: on any container state in which every entry of the expiration
structure is still live at the call tick `now` (in particular on any state
just swept by `remove_expired now`), `is_less_than_all t` is `true` iff
`get_data_exceeding t` returns a sequence of the same length as
`get_valid_data` evaluated on the same state at the same tick. -/
theorem is_less_than_all_length_agreement {T : Type} (s : ContainerState T)
    (time now : Nat) (hlive : ∀ e ∈ s.pq, now < e.expiration) :
    is_less_than_all s time
      = decide ((get_data_exceeding s time now).1.length
          = (get_valid_data s now).1.length) := by
  have hp : popExpired s.pq now = s.pq := popExpired_of_live now s.pq hlive
  have h1 : (get_valid_data s now).1.length = s.pq.length := by
    simp [get_valid_data, remove_expired, hp]
  have h2 : (get_data_exceeding s time now).1.length
      = (s.pq.filter (fun e => time < e.insertion)).length := by
    simp [get_data_exceeding, remove_expired, hp, exceedingLoop_eq]
  simp only [h1, h2]
  rw [show is_less_than_all s time = s.pq.all (fun e => time < e.insertion) from
    lessThanAllLoop_eq_all time s.pq]
  exact all_eq_decide_filter_length _ s.pq

/-- C3 witness: the amended equivalence evaluated on `sampleState` after a
sweep at tick 4 (both remaining entries live), with t = 1 and now = 4. -/
theorem is_less_than_all_length_agreement_witness :
    (∀ e ∈ (remove_expired sampleState 4).pq, 4 < e.expiration)
  ∧ is_less_than_all (remove_expired sampleState 4) 1
      = decide ((get_data_exceeding (remove_expired sampleState 4) 1 4).1.length
          = (get_valid_data (remove_expired sampleState 4) 4).1.length) :=
  ⟨by decide, is_less_than_all_length_agreement (remove_expired sampleState 4) 1 4
    (by decide)⟩

/-- C4: `get_data_exceeding(t)` first removes all entries expired as of the
call tick (the state it leaves behind is exactly `remove_expired`), and
returns exactly the values of the currently live entries with
`insertion > t`, listed in ascending expiration order. -/
theorem get_data_exceeding_spec {T : Type} (s : ContainerState T) (time now : Nat)
    (hpq : SortedByExp s.pq) :
    (get_data_exceeding s time now).2 = remove_expired s now
  ∧ (get_data_exceeding s time now).1
      = ((s.pq.filter (fun e => now < e.expiration)).filter
          (fun e => time < e.insertion)).map (fun e => e.data)
  ∧ SortedByExp ((s.pq.filter (fun e => now < e.expiration)).filter
      (fun e => time < e.insertion)) := by
  have hfil := popExpired_eq_filter now s.pq hpq
  refine ⟨rfl, ?_, ?_⟩
  · simp [get_data_exceeding, remove_expired, hfil, exceedingLoop_eq]
  · exact (hpq.sublist (List.filter_sublist s.pq)).sublist (List.filter_sublist _)

/-- C4 witness: the specification of `get_data_exceeding` evaluated on
`sampleState` with t = 1 at tick 6. -/
theorem get_data_exceeding_spec_witness :
    SortedByExp sampleState.pq
  ∧ ((get_data_exceeding sampleState 1 6).2 = remove_expired sampleState 6
  ∧ (get_data_exceeding sampleState 1 6).1
      = ((sampleState.pq.filter (fun e => 6 < e.expiration)).filter
          (fun e => 1 < e.insertion)).map (fun e => e.data)
  ∧ SortedByExp ((sampleState.pq.filter (fun e => 6 < e.expiration)).filter
      (fun e => 1 < e.insertion))) :=
  ⟨by decide, get_data_exceeding_spec sampleState 1 6 (by decide)⟩

/-- C5: `get_most_recent()` signals the empty-container error iff no entries
(live or not-yet-swept) are present in the deque, performs no eviction, and
otherwise returns the value of the back of `insertion_order`, which under the
deque's sortedness carries the greatest insertion time; a freshly constructed
container errors, and after a single insert it returns that inserted value. -/
theorem get_most_recent_spec {T : Type} (s : ContainerState T) (d : Nat) (v : T)
    (now : Nat) (hins : SortedByIns s.insertion_order) :
    (get_most_recent s = Except.error "No elements in the container"
      ↔ s.insertion_order = [])
  ∧ (∀ e, s.insertion_order.getLast? = some e →
        get_most_recent s = Except.ok e.data
        ∧ ∀ x ∈ s.insertion_order, x.insertion ≤ e.insertion)
  ∧ get_most_recent (initState T d) = Except.error "No elements in the container"
  ∧ get_most_recent (insert (initState T d) v now) = Except.ok v := by
  refine ⟨?_, ?_, rfl, ?_⟩
  · unfold get_most_recent
    cases hlast : s.insertion_order.getLast? with
    | none => simp [List.getLast?_eq_none_iff.mp hlast]
    | some e =>
        constructor
        · intro h
          cases h
        · intro h
          rw [h] at hlast
          cases hlast
  · intro e hlast
    constructor
    · unfold get_most_recent
      rw [hlast]
    · exact getLast_insertion_max s.insertion_order e hins hlast
  · rfl

/-- C5 witness: the specification of `get_most_recent` evaluated on
`sampleState` (sorted by insertion), with a fresh container of duration 5 and
a single insert of the value 42 at tick 0. -/
theorem get_most_recent_spec_witness :
    SortedByIns sampleState.insertion_order
  ∧ ((get_most_recent sampleState = Except.error "No elements in the container"
      ↔ sampleState.insertion_order = [])
  ∧ (∀ e, sampleState.insertion_order.getLast? = some e →
        get_most_recent sampleState = Except.ok e.data
        ∧ ∀ x ∈ sampleState.insertion_order, x.insertion ≤ e.insertion)
  ∧ get_most_recent (initState Nat 5) = Except.error "No elements in the container"
  ∧ get_most_recent (insert (initState Nat 5) 42 0) = Except.ok 42) :=
  ⟨by decide, get_most_recent_spec sampleState 5 42 0 (by decide)⟩

/-! ### Reachable-state invariant machinery -/

/-- The inductive invariant carried along a trace up to clock tick `t`: the two
structures hold the same entries (as a permutation), each is sorted by its own
key, every entry's expiration is its insertion plus the container's duration,
and no insertion time exceeds the tick reached so far. -/
def Inv {T : Type} (s : ContainerState T) (t : Nat) : Prop :=
  s.pq.Perm s.insertion_order
  ∧ SortedByExp s.pq
  ∧ SortedByIns s.insertion_order
  ∧ (∀ e ∈ s.insertion_order, e.expiration = e.insertion + s.fixed_duration)
  ∧ (∀ e ∈ s.insertion_order, e.insertion ≤ t)

theorem inv_init {T : Type} (d : Nat) : Inv (initState T d) 0 := by
  refine ⟨List.Perm.refl _, List.Pairwise.nil, List.Pairwise.nil, ?_, ?_⟩ <;>
    intro e he <;> cases he

theorem io_sorted_by_exp {T : Type} {l : List (TimedData T)} {d : Nat}
    (hdur : ∀ e ∈ l, e.expiration = e.insertion + d) (hins : SortedByIns l) :
    SortedByExp l := by
  refine List.Pairwise.imp_of_mem ?_ hins
  intro a b ha hb hab
  rw [hdur a ha, hdur b hb]
  exact Nat.add_le_add_right hab d

theorem inv_insert {T : Type} {s : ContainerState T} {t : Nat} (v : T) {now : Nat}
    (hinv : Inv s t) (hle : t ≤ now) : Inv (insert s v now) now := by
  obtain ⟨hperm, hexp, hins, hdur, htle⟩ := hinv
  refine ⟨?_, ?_, ?_, ?_, ?_⟩
  · exact (pqPush_perm _ _).trans
      ((hperm.cons _).trans (List.perm_append_singleton _ _).symm)
  · exact pqPush_sorted _ _ hexp
  · refine List.pairwise_append.mpr ⟨hins, List.pairwise_singleton _ _, ?_⟩
    intro a ha b hb
    rcases List.mem_singleton.mp hb with rfl
    exact le_trans (htle a ha) hle
  · intro e he
    rcases List.mem_append.mp he with h | h
    · exact hdur e h
    · rcases List.mem_singleton.mp h with rfl
      rfl
  · intro e he
    rcases List.mem_append.mp he with h | h
    · exact le_trans (htle e h) hle
    · rcases List.mem_singleton.mp h with rfl
      exact le_refl now

theorem inv_sweep {T : Type} {s : ContainerState T} {t : Nat} {now : Nat}
    (hinv : Inv s t) (hle : t ≤ now) : Inv (remove_expired s now) now := by
  obtain ⟨hperm, hexp, hins, hdur, htle⟩ := hinv
  have hioexp : SortedByExp s.insertion_order := io_sorted_by_exp hdur hins
  have hpq : popExpired s.pq now = s.pq.filter (fun e => now < e.expiration) :=
    popExpired_eq_filter now s.pq hexp
  have hio : popExpired s.insertion_order now
      = s.insertion_order.filter (fun e => now < e.expiration) :=
    popExpired_eq_filter now s.insertion_order hioexp
  refine ⟨?_, ?_, ?_, ?_, ?_⟩
  · show (popExpired s.pq now).Perm (popExpired s.insertion_order now)
    rw [hpq, hio]
    exact hperm.filter _
  · show SortedByExp (popExpired s.pq now)
    rw [hpq]
    exact hexp.sublist (List.filter_sublist s.pq)
  · show SortedByIns (popExpired s.insertion_order now)
    rw [hio]
    exact hins.sublist (List.filter_sublist s.insertion_order)
  · intro e he
    rw [show (remove_expired s now).insertion_order = popExpired s.insertion_order now
      from rfl, hio] at he
    exact hdur e (List.mem_filter.mp he).1
  · intro e he
    rw [show (remove_expired s now).insertion_order = popExpired s.insertion_order now
      from rfl, hio] at he
    exact le_trans (htle e (List.mem_filter.mp he).1) hle

theorem runOps_inv {T : Type} :
    ∀ (ops : List (Op T × Nat)) (s : ContainerState T) (t : Nat),
      Inv s t → timesMono t ops = true → ∃ u, Inv (runOps s ops) u := by
  intro ops
  induction ops with
  | nil =>
      intro s t hinv _
      exact ⟨t, hinv⟩
  | cons op rest ih =>
      intro s t hinv hmono
      obtain ⟨o, t'⟩ := op
      rw [timesMono, Bool.and_eq_true] at hmono
      have hle : t ≤ t' := of_decide_eq_true hmono.1
      cases o with
      | ins d => exact ih _ t' (inv_insert d hinv hle) hmono.2
      | sweep => exact ih _ t' (inv_sweep hinv hle) hmono.2

/-- C8: along any trace of `insert` and `remove_expired` operations with
non-decreasing captured clock times, starting from a fresh container, every
entry present in `by_expiration` is also present in `by_insertion` and vice
versa, and `by_insertion` stays sorted ascending by insertion time. -/
theorem dual_structure_invariant {T : Type} (d : Nat) (ops : List (Op T × Nat))
    (hmono : timesMono 0 ops = true) :
    (∀ e, e ∈ (runOps (initState T d) ops).pq
        ↔ e ∈ (runOps (initState T d) ops).insertion_order)
  ∧ SortedByIns (runOps (initState T d) ops).insertion_order := by
  obtain ⟨u, hperm, _, hins, _, _⟩ := runOps_inv ops (initState T d) 0 (inv_init d) hmono
  exact ⟨fun e => hperm.mem_iff, hins⟩

/-- C8 witness: the invariant evaluated at the end of the concrete trace
insert 1 at tick 0, insert 2 at tick 3, sweep at tick 6, with duration 5. -/
theorem dual_structure_invariant_witness :
    timesMono 0 [(Op.ins 1, 0), (Op.ins 2, 3), (Op.sweep, 6)] = true
  ∧ ((∀ e, e ∈ (runOps (initState Nat 5)
          [(Op.ins 1, 0), (Op.ins 2, 3), (Op.sweep, 6)]).pq
        ↔ e ∈ (runOps (initState Nat 5)
          [(Op.ins 1, 0), (Op.ins 2, 3), (Op.sweep, 6)]).insertion_order)
  ∧ SortedByIns (runOps (initState Nat 5)
      [(Op.ins 1, 0), (Op.ins 2, 3), (Op.sweep, 6)]).insertion_order) :=
  ⟨by decide, dual_structure_invariant 5 [(Op.ins 1, 0), (Op.ins 2, 3), (Op.sweep, 6)]
    (by decide)⟩

/-! ### Multiset semantics -/

theorem countP_insertMany {T : Type} [DecidableEq T] (v : T) (now : Nat) :
    ∀ (times : List Nat) (s : ContainerState T),
      (∀ t ∈ times, now < t + s.fixed_duration) →
      (insertMany s v times).pq.countP
          (fun e => e.data == v && decide (now < e.expiration))
        = s.pq.countP (fun e => e.data == v && decide (now < e.expiration))
          + times.length := by
  intro times
  induction times with
  | nil =>
      intro s _
      rfl
  | cons t ts ih =>
      intro s hlive
      have hstep : insertMany s v (t :: ts) = insertMany (insert s v t) v ts := rfl
      rw [hstep, ih (insert s v t) ?_]
      · have hq : (fun e : TimedData T => e.data == v && decide (now < e.expiration))
            (TimedData.mk v t (t + s.fixed_duration)) = true := by
          simp [hlive t (List.mem_cons_self t ts)]
        have hpq : (insert s v t).pq.countP
              (fun e => e.data == v && decide (now < e.expiration))
            = s.pq.countP (fun e => e.data == v && decide (now < e.expiration)) + 1 := by
          show (pqPush (TimedData.mk v t (t + s.fixed_duration)) s.pq).countP _
              = s.pq.countP _ + 1
          rw [(pqPush_perm _ s.pq).countP_eq, List.countP_cons]
          simp [hlive t (List.mem_cons_self t ts)]
        rw [hpq, List.length_cons]
        omega
      · intro u hu
        exact hlive u (List.mem_cons_of_mem t hu)

/-- C10: the container has multiset semantics — inserting `v` once per time in
`times` (each still unexpired at query tick `now`) makes `get_valid_data`
return `v` at least `times.length` times: neither `insert` nor the query
deduplicates equal values. -/
theorem multiset_semantics {T : Type} [DecidableEq T] (s : ContainerState T)
    (v : T) (times : List Nat) (now : Nat)
    (hlive : ∀ t ∈ times, now < t + s.fixed_duration) :
    times.length ≤ ((get_valid_data (insertMany s v times) now).1).count v := by
  have hres : (get_valid_data (insertMany s v times) now).1
      = (popExpired (insertMany s v times).pq now).map (fun e => e.data) := rfl
  rw [hres]
  have hq : ∀ e : TimedData T,
      (e.data == v && decide (now < e.expiration)) = true → now < e.expiration := by
    intro e he
    exact of_decide_eq_true (Bool.and_elim_right he)
  calc times.length
      ≤ (insertMany s v times).pq.countP
          (fun e => e.data == v && decide (now < e.expiration)) := by
        rw [countP_insertMany v now times s hlive]
        omega
    _ = (popExpired (insertMany s v times).pq now).countP
          (fun e => e.data == v && decide (now < e.expiration)) :=
        (countP_popExpired now _ hq _).symm
    _ ≤ (popExpired (insertMany s v times).pq now).countP
          (fun e => e.data == v) := by
        refine List.countP_mono_left ?_
        intro e _ he
        exact Bool.and_elim_left he
    _ = ((popExpired (insertMany s v times).pq now).map (fun e => e.data)).count v := by
        rw [List.count_eq_countP, List.countP_map]
        rfl

/-- C10 witness: inserting the value 7 twice (at ticks 0 and 1, duration 5)
into a fresh container and querying at tick 3 returns 7 at least twice. -/
theorem multiset_semantics_witness :
    (∀ t ∈ [0, 1], 3 < t + (initState Nat 5).fixed_duration)
  ∧ 2 ≤ ((get_valid_data (insertMany (initState Nat 5) 7 [0, 1]) 3).1).count 7 := by
  refine ⟨by decide, ?_⟩
  have h := multiset_semantics (initState Nat 5) 7 [0, 1] 3 (by decide)
  simpa using h

end ExpiringData
